import Mathlib

/-!
# PrintPal UI core — shallow embedding

Verification of the scene-graph / frame-engine core of the PrintPal UI
(`printpal/core/ui_component.py`, `printpal/core/ui_manager.py`,
`printpal/core/ui_screen.py`, `printpal/core/events.py`).

Modelling conventions:
* Python `int` coordinates become `ℤ`; wall-clock times and animated numeric
  values become `ℚ` (exact arithmetic in place of floats).
* `time.time()` is made explicit: every function that reads the clock takes a
  `now : ℚ` parameter.
* Python dictionaries preserving insertion order become association lists.
* Mutation becomes state passing; the mutable object graph of parents and
  children (needed for `add_child` / `remove_child`, which mutate two objects)
  becomes an explicit heap from node ids to records.
* `sorted(..., key=lambda c: c.z_index)` is Python's stable ascending sort;
  it is modelled by a stable insertion sort on the z-index key (stable
  ascending sorts agree on every input, so any stable sort is a faithful model).
-/

namespace PrintPal

/-- Event kinds, from `printpal/core/events.py` (`class UIEvent(Enum)`). -/
inductive UIEvent where
  | click | long_press | rotate_cw | rotate_ccw
  | focus | blur | value_change | animation_frame
  | screen_enter | screen_exit | key_press | key_release
deriving DecidableEq, Repr

/-- The `UIRect` dataclass: x, y, width, height (Python ints). -/
structure UIRect where
  x : ℤ
  y : ℤ
  width : ℤ
  height : ℤ
deriving DecidableEq, Repr

/-- Python `UIRect.right`: `self.x + self.width`. -/
def UIRect.right (r : UIRect) : ℤ := r.x + r.width

/-- Python `UIRect.bottom`: `self.y + self.height`. -/
def UIRect.bottom (r : UIRect) : ℤ := r.y + r.height

/-- Python `UIRect.contains(x, y)`:
`self.x <= x <= self.right and self.y <= y <= self.bottom`. -/
def UIRect.contains (r : UIRect) (px py : ℤ) : Bool :=
  decide (r.x ≤ px ∧ px ≤ r.right ∧ r.y ≤ py ∧ py ≤ r.bottom)

/-- Values that the animation engine interpolates: scalars
(`isinstance(v, (int, float))`) and tuples of scalars. -/
inductive Value where
  | num (q : ℚ)
  | tup (qs : List ℚ)
deriving DecidableEq, Repr

/-- Easing callables (`printpal/themes/animations.py`, `AnimationPresets`),
defunctionalised so that components stay decidably equal.  `linear` is also
the default easing of `animate` (`easing or (lambda x: x)`).  Only the
polynomial presets are embedded; the sine/elastic/bounce presets are
transcendental and are not used by any claim. -/
inductive Easing where
  | linear | ease_in_quad | ease_out_quad | ease_in_out_quad
  | ease_in_cubic | ease_out_cubic | ease_in_out_cubic
deriving DecidableEq, Repr

/-- Evaluation of an easing preset, translated from `AnimationPresets`. -/
def Easing.eval : Easing → ℚ → ℚ
  | .linear, t => t
  | .ease_in_quad, t => t * t
  | .ease_out_quad, t => t * (2 - t)
  | .ease_in_out_quad, t => if t < 1/2 then 2 * t * t else -1 + (4 - 2 * t) * t
  | .ease_in_cubic, t => t * t * t
  | .ease_out_cubic, t => (t - 1) * (t - 1) * (t - 1) + 1
  | .ease_in_out_cubic, t =>
      if t < 1/2 then 4 * t * t * t
      else (1/2) * (2*t - 2) * (2*t - 2) * (2*t - 2) + 1

/-- An animation descriptor, the dict stored by `UIComponent.animate`:
`{'from': .., 'to': .., 'duration': .., 'start_time': .., 'easing': ..}`.
(`from`/`to` are renamed `fromVal`/`toVal`: `from` is reserved in Lean.) -/
structure AnimDesc where
  fromVal : Value
  toVal : Value
  duration : ℚ
  start_time : ℚ
  easing : Easing
deriving DecidableEq, Repr

/-- A `UIComponent` node: rectangle, `visible`/`enabled` flags, `z_index`,
the ordered `children` list, the dynamic attribute map touched by
`getattr`/`setattr` during animation (`props`), the `animations` dict and
`animation_progress`.  (The `parent` back-reference cannot live in a purely
functional tree; the claims about it are settled on the heap model below.
`event_handlers` hold arbitrary callables and are modelled separately so the
tree stays decidably equal, matching Python's identity-based `!=`.) -/
inductive UIComponent where
  | mk (rect : UIRect) (visible : Bool) (enabled : Bool) (z_index : ℤ)
       (children : List UIComponent)
       (props : List (String × Value))
       (animations : List (String × AnimDesc))
       (animation_progress : ℚ)
deriving Repr

mutual

def compDecEq : (a b : UIComponent) → Decidable (a = b)
  | .mk r1 v1 e1 z1 cs1 p1 a1 g1, .mk r2 v2 e2 z2 cs2 p2 a2 g2 =>
    haveI := compDecEqList cs1 cs2
    decidable_of_iff
      (r1 = r2 ∧ v1 = v2 ∧ e1 = e2 ∧ z1 = z2 ∧ cs1 = cs2 ∧ p1 = p2 ∧
        a1 = a2 ∧ g1 = g2)
      (by simp)

def compDecEqList : (l1 l2 : List UIComponent) → Decidable (l1 = l2)
  | [], [] => isTrue rfl
  | [], _ :: _ => isFalse (by simp)
  | _ :: _, [] => isFalse (by simp)
  | a :: l1, b :: l2 =>
    haveI := compDecEq a b
    haveI := compDecEqList l1 l2
    decidable_of_iff (a = b ∧ l1 = l2) List.cons_eq_cons.symm

end

instance : DecidableEq UIComponent := compDecEq

namespace UIComponent

def rect : UIComponent → UIRect
  | ⟨r, _, _, _, _, _, _, _⟩ => r

def visible : UIComponent → Bool
  | ⟨_, v, _, _, _, _, _, _⟩ => v

def enabled : UIComponent → Bool
  | ⟨_, _, e, _, _, _, _, _⟩ => e

def z_index : UIComponent → ℤ
  | ⟨_, _, _, z, _, _, _, _⟩ => z

def children : UIComponent → List UIComponent
  | ⟨_, _, _, _, cs, _, _, _⟩ => cs

def props : UIComponent → List (String × Value)
  | ⟨_, _, _, _, _, ps, _, _⟩ => ps

def animations : UIComponent → List (String × AnimDesc)
  | ⟨_, _, _, _, _, _, as, _⟩ => as

def animation_progress : UIComponent → ℚ
  | ⟨_, _, _, _, _, _, _, g⟩ => g

@[simp] theorem rect_mk (r v e z cs ps as g) :
    rect ⟨r, v, e, z, cs, ps, as, g⟩ = r := rfl
@[simp] theorem visible_mk (r v e z cs ps as g) :
    visible ⟨r, v, e, z, cs, ps, as, g⟩ = v := rfl
@[simp] theorem enabled_mk (r v e z cs ps as g) :
    enabled ⟨r, v, e, z, cs, ps, as, g⟩ = e := rfl
@[simp] theorem z_index_mk (r v e z cs ps as g) :
    z_index ⟨r, v, e, z, cs, ps, as, g⟩ = z := rfl
@[simp] theorem children_mk (r v e z cs ps as g) :
    children ⟨r, v, e, z, cs, ps, as, g⟩ = cs := rfl
@[simp] theorem props_mk (r v e z cs ps as g) :
    props ⟨r, v, e, z, cs, ps, as, g⟩ = ps := rfl
@[simp] theorem animations_mk (r v e z cs ps as g) :
    animations ⟨r, v, e, z, cs, ps, as, g⟩ = as := rfl
@[simp] theorem animation_progress_mk (r v e z cs ps as g) :
    animation_progress ⟨r, v, e, z, cs, ps, as, g⟩ = g := rfl

end UIComponent

/-- One insertion step of the stable ascending sort on `z_index`.
The new element goes before the first element whose key is `≥` its own,
so earlier siblings with an equal key stay in front (stability). -/
def insertZ (c : UIComponent) : List UIComponent → List UIComponent
  | [] => [c]
  | d :: ds => if d.z_index < c.z_index then d :: insertZ c ds else c :: d :: ds

/-- Python `sorted(children, key=lambda c: c.z_index)` — Python's stable ascending
sort, modelled as stable insertion sort. -/
def sortedByZ : List UIComponent → List UIComponent
  | [] => []
  | c :: cs => insertZ c (sortedByZ cs)

theorem mem_insertZ {d c : UIComponent} {l : List UIComponent} :
    d ∈ insertZ c l ↔ d = c ∨ d ∈ l := by
  induction l with
  | nil => simp [insertZ]
  | cons e es ih =>
      by_cases h : e.z_index < c.z_index
      · simp only [insertZ, if_pos h, List.mem_cons, ih]
        tauto
      · simp only [insertZ, if_neg h, List.mem_cons]

theorem mem_sortedByZ {d : UIComponent} {l : List UIComponent} :
    d ∈ sortedByZ l ↔ d ∈ l := by
  induction l with
  | nil => simp [sortedByZ]
  | cons e es ih => simp [sortedByZ, mem_insertZ, ih]

theorem sizeOf_lt_of_mem_children {c' c : UIComponent}
    (h : c' ∈ c.children) : sizeOf c' < sizeOf c := by
  cases c with
  | mk r v e z cs ps as g =>
      have h1 : c' ∈ cs := by simpa using h
      have h2 := List.sizeOf_lt_of_mem h1
      simp only [UIComponent.mk.sizeOf_spec]
      omega

/-- Python `UIComponent.hit_test(x, y)`: `None` when invisible or disabled; when the
rectangle contains the point, the children are tried in reverse stable
z-order (topmost first) and the first non-`None` result wins, else `self`;
otherwise `None`. -/
def hitTest (x y : ℤ) (c : UIComponent) : Option UIComponent :=
  if c.visible = false ∨ c.enabled = false then none
  else if c.rect.contains x y then
    match ((sortedByZ c.children).reverse.attach.findSome?
        (fun d => hitTest x y d.1)) with
    | some result => some result
    | none => some c
  else none
termination_by sizeOf c
decreasing_by
  exact sizeOf_lt_of_mem_children
    (mem_sortedByZ.mp (List.mem_reverse.mp d.2))

/-! ## Dynamic attribute map (`getattr` / `setattr`)

The properties that `animate` reads and `_update_animations` writes are
dynamic Python attributes; they are modelled as an insertion-ordered
association list.  Re-assigning an existing key keeps its position, as a
Python attribute/dict assignment does. -/

/-- Python `getattr(self, name, None)` on the dynamic attribute map. -/
def getProp (ps : List (String × Value)) (name : String) : Option Value :=
  (ps.find? (fun p => p.1 = name)).map (·.2)

/-- Python `setattr(self, name, v)` on the dynamic attribute map: replace the first
binding of `name` in place, or append a fresh one. -/
def setProp (ps : List (String × Value)) (name : String) (v : Value) :
    List (String × Value) :=
  match ps with
  | [] => [(name, v)]
  | (k, w) :: rest =>
      if k = name then (k, v) :: rest else (k, w) :: setProp rest name v

/-- Lookup in the `animations` dict. -/
def getAnim (l : List (String × AnimDesc)) (name : String) : Option AnimDesc :=
  (l.find? (fun p => p.1 = name)).map (·.2)

/-- Python `self.animations[name] = d`: dict assignment (replace in place or append,
so at most one in-flight animation per property). -/
def setAnim (l : List (String × AnimDesc)) (name : String) (d : AnimDesc) :
    List (String × AnimDesc) :=
  match l with
  | [] => [(name, d)]
  | (k, w) :: rest =>
      if k = name then (k, d) :: rest else (k, w) :: setAnim rest name d

/-- Python's `q % 1.0` for a float `q` (the divisor is positive, so the
result is `q - ⌊q⌋`). -/
def qfract (q : ℚ) : ℚ := q - Rat.floor q

/-- One iteration of the `for prop_name, anim in self.animations.items()`
loop of `_update_animations`: given the current attribute map, produce the
updated map and whether the animation completed this tick (joined
`to_remove`).  `now` models `current_time = time.time()`. -/
def stepAnim (now : ℚ) (ps : List (String × Value))
    (name : String) (anim : AnimDesc) : List (String × Value) × Bool :=
  let elapsed := now - anim.start_time
  let progress := min 1 (elapsed / anim.duration)
  if 1 ≤ progress then
    -- Animation complete: `setattr(self, prop_name, anim['to'])`.
    (setProp ps name anim.toVal, true)
  else
    let easing := anim.easing.eval progress
    match anim.fromVal, anim.toVal with
    | .num f, .num t => (setProp ps name (.num (f + (t - f) * easing)), false)
    | .tup f, .tup t =>
        (setProp ps name (.tup (List.zipWith (fun a b => a + (b - a) * easing) f t)), false)
    | _, _ => (ps, false)   -- incompatible value types: silently skipped

/-- Python `UIComponent._update_animations(dt)`: advance `animation_progress`
modulo 1, run every descriptor in insertion order against the attribute
map, then delete the completed descriptors. -/
def updateAnimationsNode (now dt : ℚ) (c : UIComponent) : UIComponent :=
  match c with
  | ⟨r, v, e, z, cs, ps, as, g⟩ =>
    let res := as.foldl
      (fun (acc : List (String × Value) × List String) pa =>
        let step := stepAnim now acc.1 pa.1 pa.2
        (step.1, if step.2 then acc.2 ++ [pa.1] else acc.2))
      (ps, [])
    ⟨r, v, e, z, cs, res.1, (as.filter (fun pa => pa.1 ∉ res.2)), qfract (g + dt)⟩

@[simp] theorem children_updateAnimationsNode (now dt : ℚ) (c : UIComponent) :
    (updateAnimationsNode now dt c).children = c.children := by
  cases c; simp [updateAnimationsNode]

/-- Python `UIComponent.update(dt)`: run `_update_animations` when the animation
dict is non-empty, then recurse into each visible child (hidden children are
left untouched).  `_update_animations` never changes `children`, so the
recursion is over the original child list. -/
def updateComp (now dt : ℚ) (c : UIComponent) : UIComponent :=
  let c1 := if c.animations.isEmpty then c else updateAnimationsNode now dt c
  match c1 with
  | ⟨r, v, e, z, _, ps, as, g⟩ =>
    ⟨r, v, e, z,
     c.children.attach.map
       (fun d => if d.1.visible then updateComp now dt d.1 else d.1),
     ps, as, g⟩
termination_by sizeOf c
decreasing_by
  exact sizeOf_lt_of_mem_children d.2

/-- Python `UIComponent.animate(name, to_value, duration, easing)`: read the current
attribute value as `from` (no-op when absent), store the descriptor
timestamped at call time (`now` models `time.time()`). -/
def animate (now : ℚ) (name : String) (toVal : Value) (duration : ℚ)
    (easing : Easing) (c : UIComponent) : UIComponent :=
  match getProp c.props name with
  | none => c
  | some fromVal =>
      match c with
      | ⟨r, v, e, z, cs, ps, as, g⟩ =>
        ⟨r, v, e, z, cs, ps,
         setAnim as name ⟨fromVal, toVal, duration, now, easing⟩, g⟩

/-! ## Parent/child bookkeeping (`add_child` / `remove_child`)

`add_child` and `remove_child` mutate two objects at once (the child's
`parent` back-reference and the parent's `children` list), so they are
modelled on an explicit heap: node ids (`ℕ`) mapped to a record holding the
two mutated fields.  The updates are performed in the source's order, which
also captures Python aliasing when the parent and the child are the same
object. -/

/-- The mutable per-object state touched by `add_child`/`remove_child`:
`self.parent` (an object reference, here an id) and `self.children`
(an ordered list of ids). -/
structure NodeRec where
  parent : Option ℕ
  children : List ℕ
deriving DecidableEq, Repr

/-- The object heap: every id owns a `NodeRec`. -/
def Heap : Type := ℕ → NodeRec

/-- Python `parent.add_child(child)`:
`child.parent = self; self.children.append(child)`. -/
def add_child (h : Heap) (p c : ℕ) : Heap :=
  let h1 := Function.update h c { h c with parent := some p }
  Function.update h1 p { h1 p with children := (h1 p).children ++ [c] }

/-- Python `parent.remove_child(child)`: when `child in self.children`,
`child.parent = None; self.children.remove(child)` (Python `list.remove`
deletes the first occurrence); otherwise a no-op. -/
def remove_child (h : Heap) (p c : ℕ) : Heap :=
  if c ∈ (h p).children then
    let h1 := Function.update h c { h c with parent := none }
    Function.update h1 p { h1 p with children := (h1 p).children.erase c }
  else h

/-- The spec's ownership invariant: a node appears in `parent.children` iff
`node.parent is parent`. -/
def Inv (h : Heap) : Prop :=
  ∀ n p : ℕ, n ∈ (h p).children ↔ (h n).parent = some p

/-- No `children` list mentions the same node twice. -/
def NodupChildren (h : Heap) : Prop := ∀ p : ℕ, (h p).children.Nodup

/-! ## Event emission (`on` / `emit`)

Handlers are arbitrary Python callables with side effects that may raise.
A handler is modelled as a state transformer `σ → σ × Option String`: it
transforms an ambient state and optionally raises an exception message
(its state effects before the raise persist, as in Python).  `emit` runs
the handlers registered for a kind in registration order, turning every
raise into a log line (`print(f"Error in event handler: {e}")`) and
continuing. -/

/-- A registered event handler over ambient state `σ`. -/
def Handler (σ : Type) : Type := σ → σ × Option String

/-- A node's `event_handlers` dict: event kind ↦ handlers in registration
order. -/
def HandlerTable (σ : Type) : Type := List (UIEvent × List (Handler σ))

/-- Python `if event in self.event_handlers`: look up the handler list. -/
def getHandlers {σ : Type} (tbl : HandlerTable σ) (e : UIEvent) :
    Option (List (Handler σ)) :=
  (tbl.find? (fun p => p.1 = e)).map (·.2)

/-- Python `UIComponent.emit(event, ...)`: run every registered handler for the
kind in order; a raise is caught, logged, and the loop continues.  Returns
the final ambient state and the log lines, always normally. -/
def emit {σ : Type} (tbl : HandlerTable σ) (e : UIEvent) (s : σ) :
    σ × List String :=
  match getHandlers tbl e with
  | none => (s, [])
  | some hs =>
      hs.foldl
        (fun (acc : σ × List String) handler =>
          let r := handler acc.1
          match r.2 with
          | none => (r.1, acc.2)
          | some msg => (r.1, acc.2 ++ ["Error in event handler: " ++ msg]))
        (s, [])

/-- Sequential application of every handler's state effect, in order,
ignoring raises (the reference for "every handler runs"). -/
def runAll {σ : Type} : List (Handler σ) → σ → σ
  | [], s => s
  | h :: hs, s => runAll hs (h s).1

/-- The log lines produced when the handlers run in order: one line per
raising handler. -/
def errLog {σ : Type} : List (Handler σ) → σ → List String
  | [], _ => []
  | h :: hs, s =>
      match (h s).2 with
      | none => errLog hs (h s).1
      | some msg => ("Error in event handler: " ++ msg) :: errLog hs (h s).1

/-! ## Screen and Manager -/

/-- The `UIScreen` state relevant to the manager: `name`, dimensions, the root
node, the lazy-`initialize` flag and `is_active`. -/
structure UIScreenM where
  name : String
  width : ℤ
  height : ℤ
  root : UIComponent
  initialized : Bool
  is_active : Bool
deriving DecidableEq, Repr

/-- The `UIManager` state relevant to input routing and screen switching.
(`current_screen` and `previous_screen` hold screen values; Python stores
references into the registry.  `focused_component` likewise holds the
component value; Python's identity `!=` is modelled by structural
equality.) -/
structure UIManagerM where
  width : ℤ
  height : ℤ
  screens : List (String × UIScreenM)
  current_screen : Option UIScreenM
  previous_screen : Option UIScreenM
  focused_component : Option UIComponent
deriving DecidableEq, Repr

/-- Python `screen_name in self.screens` / `self.screens[screen_name]`. -/
def lookupScreen (ss : List (String × UIScreenM)) (n : String) :
    Option UIScreenM :=
  (ss.find? (fun p => p.1 = n)).map (·.2)

/-- Lifecycle hook invocations observable during `switch_screen`. -/
inductive HookRec where
  | onExit (name : String)
  | onEnter (name : String)
deriving DecidableEq, Repr

/-- Python `UIManager.switch_screen(name)` (without a transition): unknown names
print and return; otherwise `on_exit` the current screen (clearing
`is_active`), remember it as `previous_screen`, install the target and
`on_enter` it (setting `is_active`).  The hook trace is returned alongside
the new state. -/
def switch_screen (m : UIManagerM) (name : String) :
    UIManagerM × List HookRec :=
  match lookupScreen m.screens name with
  | none => (m, [])   -- `print(f"Screen '{name}' not found"); return`
  | some scr =>
      let step :=
        match m.current_screen with
        | some cs =>
            let cs' := { cs with is_active := false }   -- `on_exit`
            ({ m with current_screen := some cs', previous_screen := some cs' },
             [HookRec.onExit cs.name])
        | none => (m, ([] : List HookRec))
      let scr' := { scr with is_active := true }        -- `on_enter`
      ({ step.1 with current_screen := some scr' },
       step.2 ++ [HookRec.onEnter scr.name])

/-- Event deliveries observable during `handle_input`: `target.emit(kind)`
on a component, or the active screen's `handle_event(kind)`. -/
inductive EmitRec where
  | comp (target : UIComponent) (e : UIEvent)
  | screenHandler (s : UIScreenM) (e : UIEvent)
deriving DecidableEq, Repr

/-- Emission trace of `target.emit(kind)` on an optional target: one record for `some c`, nothing for `none`. -/
def optEmit (o : Option UIComponent) (e : UIEvent) : List EmitRec :=
  match o with
  | some c => [EmitRec.comp c e]
  | none => []

/-- Python `UIManager.handle_input(event, x, y)`: no-op without an active screen;
for click/long-press with both coordinates, hit-test the active root,
diff the focus (blur the old, update, focus the new), deliver the event to
the hit node; in every case finish by invoking the active screen's own
`handle_event`.  The emission trace is returned alongside the new state. -/
def handleInput (m : UIManagerM) (e : UIEvent) (xOpt yOpt : Option ℤ) :
    UIManagerM × List EmitRec :=
  match m.current_screen with
  | none => (m, [])
  | some scr =>
      let step : UIManagerM × List EmitRec :=
        match xOpt, yOpt with
        | some x, some y =>
            if e = UIEvent.click ∨ e = UIEvent.long_press then
              let hit := hitTest x y scr.root
              let focusStep : UIManagerM × List EmitRec :=
                if hit = m.focused_component then (m, [])
                else
                  ({ m with focused_component := hit },
                   optEmit m.focused_component UIEvent.blur ++
                     optEmit hit UIEvent.focus)
              (focusStep.1, focusStep.2 ++ optEmit hit e)
            else (m, [])
        | _, _ => (m, [])
      (step.1, step.2 ++ [EmitRec.screenHandler scr e])

/-! ## Unfolding lemmas

`hitTest` and `updateComp` are defined by well-founded recursion over the
nested tree, with `List.attach` carrying the membership facts the
termination argument needs.  The lemmas below restate their defining
equations without `attach`, which is the form every proof uses. -/

theorem attach_findSome? {α β : Type} (l : List α) (g : α → Option β) :
    l.attach.findSome? (fun d => g d.1) = l.findSome? g := by
  calc l.attach.findSome? (fun d => g d.1)
      = (l.attach.map Subtype.val).findSome? g := (List.findSome?_map _ _).symm
    _ = l.findSome? g := by rw [List.attach_map_subtype_val]

theorem hitTest_eq (x y : ℤ) (c : UIComponent) :
    hitTest x y c =
      if c.visible = false ∨ c.enabled = false then none
      else if c.rect.contains x y then
        match (sortedByZ c.children).reverse.findSome? (hitTest x y) with
        | some result => some result
        | none => some c
      else none := by
  rw [hitTest, attach_findSome?]

theorem updateComp_eq (now dt : ℚ) (c : UIComponent) :
    updateComp now dt c =
      (match (if c.animations.isEmpty then c else updateAnimationsNode now dt c) with
       | ⟨r, v, e, z, _, ps, as, g⟩ =>
         ⟨r, v, e, z,
          c.children.map
            (fun ch => if ch.visible then updateComp now dt ch else ch),
          ps, as, g⟩) := by
  have h : c.children.attach.map
        (fun d => if (d.1).visible = true then updateComp now dt d.1 else d.1)
      = c.children.map
        (fun ch => if ch.visible = true then updateComp now dt ch else ch) := by
    conv_rhs => rw [← List.attach_map_subtype_val c.children]
    rw [List.map_map]
    rfl
  rw [updateComp, h]

/-! ## C1 scenario: root container with one button -/

/-- The C1/C10 button: rectangle (10, 10, 50, 30), visible, enabled. -/
def c1button : UIComponent :=
  ⟨⟨10, 10, 50, 30⟩, true, true, 0, [], [], [], 0⟩

/-- The C1 root: a visible, enabled container with rectangle
(0, 0, 320, 240) holding `c1button` as its only child. -/
def c1root : UIComponent :=
  ⟨⟨0, 0, 320, 240⟩, true, true, 0, [c1button], [], [], 0⟩

/-! ## Further concrete scenarios used by counterexamples and witnesses -/

/-- A heap satisfying the ownership invariant: node 0 is the parent of
node 2; node 1 is free. -/
def h2ex : Heap := fun n =>
  if n = 0 then ⟨none, [2]⟩
  else if n = 2 then ⟨some 0, []⟩
  else ⟨none, []⟩

/-- A heap where node 1 is already the child of node 0. -/
def h6 : Heap := fun n =>
  if n = 0 then ⟨none, [1]⟩
  else if n = 1 then ⟨some 0, []⟩
  else ⟨none, []⟩

/-- A heap of isolated nodes: no parents, no children. -/
def hFresh : Heap := fun _ => ⟨none, []⟩

/-- A hidden child carrying an in-flight animation. -/
def hidden9 : UIComponent :=
  ⟨⟨0, 0, 10, 10⟩, false, true, 0, [], [("p", .num 0)],
    [("p", ⟨.num 0, .num 100, 1, 0, .linear⟩)], 0⟩

/-- A visible root whose only child is `hidden9`. -/
def root9 : UIComponent :=
  ⟨⟨0, 0, 320, 240⟩, true, true, 0, [hidden9], [], [], 0⟩

/-- A screen wrapping the C1 scenario tree. -/
def scr3 : UIScreenM := ⟨"main", 320, 240, c1root, true, true⟩

/-- A manager whose active screen is `scr3`, with nothing focused. -/
def mgr3 : UIManagerM := ⟨320, 240, [("main", scr3)], some scr3, none, none⟩

/-- The handlers `emit` will run: the registered list for the kind, or
nothing when the kind is absent from `event_handlers`. -/
def handlersOf {σ : Type} (tbl : HandlerTable σ) (e : UIEvent) :
    List (Handler σ) :=
  (getHandlers tbl e).getD []

/-- The last sibling carrying the maximal z-index — the node the spec says
an all-overlapping hit-test must resolve to. -/
def lastMax : List UIComponent → Option UIComponent
  | [] => none
  | c :: cs =>
      match lastMax cs with
      | none => some c
      | some m => if m.z_index < c.z_index then some c else some m

/-! ## C1 -/

/-- C1 counterexample: in the spec's scenario — root container (0,0,320,240)
with one child button (10,10,50,30) — `hit_test(200,200)` does **not**
return none: the point lies inside the root's rectangle, no child matches,
so `hit_test` returns the root itself (the self-match branch). -/
theorem c1_hit_test_miss_returns_root_not_none :
    hitTest 200 200 c1root = some c1root ∧ hitTest 200 200 c1root ≠ none := by
  have h : hitTest 200 200 c1root = some c1root := by
    simp [hitTest_eq, c1root, c1button, sortedByZ, insertZ,
      UIRect.contains, UIRect.right, UIRect.bottom]
  exact ⟨h, by rw [h]; simp⟩

/-- C1 (amended): in the scenario — root container (0,0,320,240) with one
child button (10,10,50,30), all visible and enabled — `hit_test(30,20)`
returns the button, and `hit_test(200,200)` returns the root container
itself (not none): the point is inside the root but outside the button, so
the root's self-match applies. -/
theorem c1_scenario_hit_test :
    hitTest 30 20 c1root = some c1button ∧
    hitTest 200 200 c1root = some c1root := by
  constructor
  · simp [hitTest_eq, c1root, c1button, sortedByZ, insertZ,
      UIRect.contains, UIRect.right, UIRect.bottom]
  · simp [hitTest_eq, c1root, c1button, sortedByZ, insertZ,
      UIRect.contains, UIRect.right, UIRect.bottom]

/-! ## C10 -/

/-- C10: point containment is inclusive of the right and bottom edges, so on
a childless visible, enabled node `hit_test(x + width, y + height)` returns
the node itself; along the node's top edge exactly the `width + 1` integer
abscissas from `x` to `x + width` are contained. -/
theorem hit_test_edges_inclusive (c : UIComponent)
    (hv : c.visible = true) (he : c.enabled = true)
    (hleaf : c.children = [])
    (hw : 0 ≤ c.rect.width) (hh : 0 ≤ c.rect.height) :
    hitTest (c.rect.x + c.rect.width) (c.rect.y + c.rect.height) c = some c ∧
    (∀ px : ℤ, c.rect.contains px c.rect.y = true ↔
      c.rect.x ≤ px ∧ px ≤ c.rect.x + c.rect.width) ∧
    (Finset.Icc c.rect.x (c.rect.x + c.rect.width)).card =
      (c.rect.width + 1).toNat := by
  refine ⟨?_, ?_, ?_⟩
  · rw [hitTest_eq, hleaf]
    have hcont : c.rect.contains (c.rect.x + c.rect.width)
        (c.rect.y + c.rect.height) = true := by
      simp [UIRect.contains, UIRect.right, UIRect.bottom]
      omega
    simp [hv, he, hcont, sortedByZ]
  · intro px
    simp [UIRect.contains, UIRect.right, UIRect.bottom]
    omega
  · rw [Int.card_Icc]
    congr 1
    omega

/-- C10 witness: the (10,10,50,30) button responds at its bottom-right
corner (60, 40). -/
theorem hit_test_edges_inclusive_witness :
    c1button.visible = true ∧ c1button.enabled = true ∧
    c1button.children = [] ∧
    0 ≤ c1button.rect.width ∧ 0 ≤ c1button.rect.height ∧
    (hitTest (c1button.rect.x + c1button.rect.width)
        (c1button.rect.y + c1button.rect.height) c1button = some c1button ∧
      (∀ px : ℤ, c1button.rect.contains px c1button.rect.y = true ↔
        c1button.rect.x ≤ px ∧ px ≤ c1button.rect.x + c1button.rect.width) ∧
      (Finset.Icc c1button.rect.x
        (c1button.rect.x + c1button.rect.width)).card =
        (c1button.rect.width + 1).toNat) :=
  ⟨rfl, rfl, rfl, by simp [c1button], by simp [c1button],
    hit_test_edges_inclusive c1button rfl rfl rfl
      (by simp [c1button]) (by simp [c1button])⟩

/-! ## C8 -/

/-- C8: `switch_screen` on a name absent from the registry leaves the
manager state — in particular `current_screen` and `previous_screen` —
unchanged, and invokes no `on_exit`/`on_enter` hook (the empty hook
trace). The model is a total function, so nothing is raised. -/
theorem switch_screen_unknown_name_noop (m : UIManagerM) (name : String)
    (habs : lookupScreen m.screens name = none) :
    switch_screen m name = (m, []) := by
  rw [switch_screen, habs]

/-- C8 witness: switching an empty-registry manager to "nonexistent". -/
theorem switch_screen_unknown_name_noop_witness :
    lookupScreen (UIManagerM.mk 320 240 [] none none none).screens
      "nonexistent" = none ∧
    switch_screen (UIManagerM.mk 320 240 [] none none none) "nonexistent" =
      (UIManagerM.mk 320 240 [] none none none, []) :=
  ⟨rfl, switch_screen_unknown_name_noop _ "nonexistent" rfl⟩

/-! ## C6 -/

/-- C6 counterexample: when node 1 is **already** a child of node 0
(heap `h6`), `add_child` appends a second occurrence and `remove_child`
deletes only the first, so after `add_child(c)`; `remove_child(c)` the
child is still a member of `parent.children` — the inverse law fails. -/
theorem add_remove_child_not_inverse_when_already_child :
    1 ∈ ((remove_child (add_child h6 0 1) 0 1) 0).children := by decide

/-- C6 (amended): provided `c` is not already a member of `p.children`,
`p.add_child(c)` followed by `p.remove_child(c)` leaves `c.parent == None`
and `c` not a member of `p.children` (this also covers `p = c`). -/
theorem add_remove_child_inverse (h : Heap) (p c : ℕ)
    (hnotmem : c ∉ (h p).children) :
    ((remove_child (add_child h p c) p c) c).parent = none ∧
    c ∉ ((remove_child (add_child h p c) p c) p).children := by
  by_cases hpc : p = c
  · subst hpc
    have hmem : p ∈ ((add_child h p p) p).children := by
      simp [add_child, Function.update]
    rw [remove_child, if_pos hmem]
    have herase : (((h p).children ++ [p]).erase p) = (h p).children := by
      rw [List.erase_append_right _ hnotmem]
      simp
    simp [add_child, Function.update, herase, hnotmem]
  · have hmem : c ∈ ((add_child h p c) p).children := by
      simp [add_child, Function.update, hpc]
    rw [remove_child, if_pos hmem]
    have herase : (((h p).children ++ [c]).erase c) = (h p).children := by
      rw [List.erase_append_right _ hnotmem]
      simp
    constructor
    · simp [add_child, Function.update, hpc, Ne.symm hpc]
    · simp [add_child, Function.update, hpc, Ne.symm hpc, herase, hnotmem]

/-- C6 witness: on the heap of isolated nodes, adding node 1 to node 0 and
removing it again restores the original relationship. -/
theorem add_remove_child_inverse_witness :
    (1 ∉ (hFresh 0).children) ∧
    (((remove_child (add_child hFresh 0 1) 0 1) 1).parent = none ∧
      1 ∉ ((remove_child (add_child hFresh 0 1) 0 1) 0).children) :=
  ⟨by decide, add_remove_child_inverse hFresh 0 1 (by decide)⟩

/-! ## C7 -/

theorem emit_foldl_aux {σ : Type} (hs : List (Handler σ)) (s : σ)
    (log : List String) :
    hs.foldl
      (fun (acc : σ × List String) handler =>
        let r := handler acc.1
        match r.2 with
        | none => (r.1, acc.2)
        | some msg => (r.1, acc.2 ++ ["Error in event handler: " ++ msg]))
      (s, log) = (runAll hs s, log ++ errLog hs s) := by
  induction hs generalizing s log with
  | nil => simp [runAll, errLog]
  | cons h t ih =>
      simp only [List.foldl_cons, runAll, errLog]
      cases hm : (h s).2 <;> simp [hm, ih]

/-- C7: `emit` applies every registered handler for the kind, in
registration order (`runAll` is plain sequential application): an erroring
handler's exception is turned into one log line and the remaining handlers
still run, the call always returning normally with the accumulated state
and log.  With no handlers registered for the kind (an absent key or an
empty list), `runAll`/`errLog` are the identity and the empty log, so emit
has no observable effect. -/
theorem emit_runs_all_handlers (σ : Type) (tbl : HandlerTable σ)
    (e : UIEvent) (s : σ) :
    emit tbl e s = (runAll (handlersOf tbl e) s, errLog (handlersOf tbl e) s) ∧
    runAll ([] : List (Handler σ)) s = s ∧
    errLog ([] : List (Handler σ)) s = [] := by
  refine ⟨?_, rfl, rfl⟩
  rw [emit, handlersOf]
  cases hg : getHandlers tbl e with
  | none => simp [runAll, errLog]
  | some hs => simpa using emit_foldl_aux hs s []

/-! ## C2 -/

/-- C2 counterexample: from heap `h2ex` — where the invariant holds and
node 2 is the child of node 0 — re-adding node 2 to node 1 breaks the
invariant: `add_child` re-points `2.parent` to 1 but leaves 2 inside
node 0's `children`. -/
theorem add_child_breaks_invariant_on_reparent :
    Inv h2ex ∧ ¬ Inv (add_child h2ex 1 2) := by
  constructor
  · intro n p
    rcases n with _ | _ | _ | n <;> rcases p with _ | _ | _ | p <;>
      simp [h2ex]
  · intro hI
    have h2 : (2 : ℕ) ∈ ((add_child h2ex 1 2) 0).children := by decide
    exact absurd ((hI 2 0).mp h2) (by decide)

theorem remove_child_parent_eq (h : Heap) (p c : ℕ)
    (hmem : c ∈ (h p).children) (x : ℕ) :
    ((remove_child h p c) x).parent = if x = c then none else (h x).parent := by
  rw [remove_child, if_pos hmem]
  by_cases hxp : x = p
  · rw [hxp, Function.update_same]
    by_cases hpc : p = c
    · rw [if_pos hpc]
      show (Function.update h c _ p).parent = none
      rw [hpc, Function.update_same]
    · rw [if_neg hpc]
      show (Function.update h c _ p).parent = (h p).parent
      rw [Function.update_noteq hpc]
  · rw [Function.update_noteq hxp]
    by_cases hxc : x = c
    · rw [if_pos hxc, hxc, Function.update_same]
    · rw [if_neg hxc, Function.update_noteq hxc]

theorem remove_child_children_eq (h : Heap) (p c : ℕ)
    (hmem : c ∈ (h p).children) (x : ℕ) :
    ((remove_child h p c) x).children =
      if x = p then (h p).children.erase c else (h x).children := by
  rw [remove_child, if_pos hmem]
  by_cases hxp : x = p
  · rw [if_pos hxp, hxp, Function.update_same]
    by_cases hpc : p = c
    · show (Function.update h c _ p).children.erase c = _
      rw [hpc, Function.update_same]
    · show (Function.update h c _ p).children.erase c = _
      rw [Function.update_noteq hpc]
  · rw [if_neg hxp, Function.update_noteq hxp]
    by_cases hxc : x = c
    · rw [hxc, Function.update_same]
    · rw [Function.update_noteq hxc]

theorem add_child_parent_eq (h : Heap) (p c : ℕ) (x : ℕ) :
    ((add_child h p c) x).parent = if x = c then some p else (h x).parent := by
  rw [add_child]
  by_cases hxp : x = p
  · rw [hxp, Function.update_same]
    by_cases hpc : p = c
    · rw [if_pos hpc]
      show (Function.update h c _ p).parent = some p
      rw [hpc, Function.update_same]
    · rw [if_neg hpc]
      show (Function.update h c _ p).parent = (h p).parent
      rw [Function.update_noteq hpc]
  · rw [Function.update_noteq hxp]
    by_cases hxc : x = c
    · rw [if_pos hxc, hxc, Function.update_same]
    · rw [if_neg hxc, Function.update_noteq hxc]

theorem add_child_children_eq (h : Heap) (p c : ℕ) (x : ℕ) :
    ((add_child h p c) x).children =
      if x = p then (h p).children ++ [c] else (h x).children := by
  rw [add_child]
  by_cases hxp : x = p
  · rw [if_pos hxp, hxp, Function.update_same]
    by_cases hpc : p = c
    · show (Function.update h c _ p).children ++ [c] = _
      rw [hpc, Function.update_same]
    · show (Function.update h c _ p).children ++ [c] = _
      rw [Function.update_noteq hpc]
  · rw [if_neg hxp, Function.update_noteq hxp]
    by_cases hxc : x = c
    · rw [hxc, Function.update_same]
    · rw [Function.update_noteq hxc]

/-- C2 (amended): the ownership invariant — strengthened with the implicit
companion fact that no `children` list repeats a node — is preserved by
`remove_child` from any state satisfying it, and by `add_child` whenever the
node being added has no parent (is not currently anyone's child).
Re-adding a node that already has a parent can break the invariant
(see the counterexample), so that case is excluded. -/
theorem tree_ops_preserve_ownership_invariant (h : Heap) (p c : ℕ)
    (hInv : Inv h) (hNd : NodupChildren h) :
    (Inv (remove_child h p c) ∧ NodupChildren (remove_child h p c)) ∧
    ((h c).parent = none →
      Inv (add_child h p c) ∧ NodupChildren (add_child h p c)) := by
  constructor
  · by_cases hmem : c ∈ (h p).children
    · constructor
      · intro n q
        rw [remove_child_children_eq h p c hmem,
          remove_child_parent_eq h p c hmem]
        by_cases hq : q = p
        · rw [if_pos hq, hq]
          by_cases hn : n = c
          · rw [if_pos hn, hn]
            simp [(hNd p).not_mem_erase, (hInv c p).mp hmem]
          · rw [if_neg hn, List.mem_erase_of_ne hn]
            exact hInv n p
        · rw [if_neg hq]
          by_cases hn : n = c
          · rw [if_pos hn, hn]
            constructor
            · intro hcq
              have h1 := (hInv c q).mp hcq
              rw [(hInv c p).mp hmem] at h1
              exact absurd (Option.some_injective _ h1).symm hq
            · intro hfalse
              exact absurd hfalse (by simp)
          · rw [if_neg hn]
            exact hInv n q
      · intro q
        rw [remove_child_children_eq h p c hmem]
        by_cases hq : q = p
        · rw [if_pos hq]
          exact (hNd p).erase c
        · rw [if_neg hq]
          exact hNd q
    · rw [remove_child, if_neg hmem]
      exact ⟨hInv, hNd⟩
  · intro hpar
    have hnotmem : ∀ q, c ∉ (h q).children := by
      intro q hq
      have h1 := (hInv c q).mp hq
      rw [hpar] at h1
      exact Option.noConfusion h1
    constructor
    · intro n q
      rw [add_child_children_eq, add_child_parent_eq]
      by_cases hq : q = p
      · rw [if_pos hq, hq]
        by_cases hn : n = c
        · rw [if_pos hn, hn]
          simp
        · rw [if_neg hn]
          rw [List.mem_append, List.mem_singleton, or_iff_left hn]
          exact hInv n p
      · rw [if_neg hq]
        by_cases hn : n = c
        · rw [if_pos hn, hn]
          constructor
          · intro hcq
            exact absurd hcq (hnotmem q)
          · intro hsome
            exact absurd (Option.some_injective _ hsome) (Ne.symm hq)
        · rw [if_neg hn]
          exact hInv n q
    · intro q
      rw [add_child_children_eq]
      by_cases hq : q = p
      · rw [if_pos hq]
        rw [List.nodup_append]
        exact ⟨hNd p, List.nodup_singleton c,
          by simpa [List.disjoint_singleton] using hnotmem p⟩
      · rw [if_neg hq]
        exact hNd q

/-- C2 witness: the invariant holds on the heap of isolated nodes, and both
operations preserve it there for parent 0 and child 1. -/
theorem tree_ops_preserve_ownership_invariant_witness :
    Inv hFresh ∧ NodupChildren hFresh ∧
    ((Inv (remove_child hFresh 0 1) ∧ NodupChildren (remove_child hFresh 0 1)) ∧
      ((hFresh 1).parent = none →
        Inv (add_child hFresh 0 1) ∧ NodupChildren (add_child hFresh 0 1))) :=
  ⟨fun n p => by simp [hFresh], fun p => by simp [hFresh],
    tree_ops_preserve_ownership_invariant hFresh 0 1
      (fun n p => by simp [hFresh]) (fun p => by simp [hFresh])⟩

/-! ## C4 -/

theorem getProp_setProp (ps : List (String × Value)) (name : String)
    (v : Value) : getProp (setProp ps name v) name = some v := by
  induction ps with
  | nil => simp [getProp, setProp]
  | cons hd tl ih =>
      obtain ⟨k, w⟩ := hd
      by_cases hk : k = name
      · simp [getProp, setProp, hk]
      · simp only [setProp, if_neg hk]
        simpa [getProp, hk] using ih

theorem props_updateComp (now dt : ℚ) (c : UIComponent) :
    (updateComp now dt c).props =
      (if c.animations.isEmpty then c else updateAnimationsNode now dt c).props := by
  rw [updateComp_eq]
  generalize (if c.animations.isEmpty then c else updateAnimationsNode now dt c) = c1
  cases c1
  simp

theorem animations_updateComp (now dt : ℚ) (c : UIComponent) :
    (updateComp now dt c).animations =
      (if c.animations.isEmpty then c else updateAnimationsNode now dt c).animations := by
  rw [updateComp_eq]
  generalize (if c.animations.isEmpty then c else updateAnimationsNode now dt c) = c1
  cases c1
  simp

theorem single_anim_update (now dt : ℚ) (r : UIRect) (v e : Bool) (z : ℤ)
    (cs : List UIComponent) (ps : List (String × Value)) (g : ℚ)
    (name : String) (d : AnimDesc) :
    (updateAnimationsNode now dt ⟨r, v, e, z, cs, ps, [(name, d)], g⟩).props =
      (stepAnim now ps name d).1 ∧
    (updateAnimationsNode now dt ⟨r, v, e, z, cs, ps, [(name, d)], g⟩).animations =
      (if (stepAnim now ps name d).2 then [] else [(name, d)]) := by
  by_cases hdone : (stepAnim now ps name d).2
  · simp [updateAnimationsNode, hdone]
  · simp [updateAnimationsNode, hdone]

/-- C4: on a node whose numeric property equals 0 and with no other
animation in flight, `animate(name, to := 100, duration := 1, linear)`
started at `now` behaves as specified under `update` ticks: sampling at
elapsed 0 leaves the property at exactly 0, sampling at elapsed 1/2 yields
exactly 50, and any tick at elapsed ≥ 1 sets the property to exactly 100
(the `to` value, bypassing the easing formula) and deletes the descriptor
from the animations map. -/
theorem animate_linear_from_zero_ticks (c : UIComponent) (name : String)
    (now dt1 dt2 dt3 t : ℚ)
    (hprop : getProp c.props name = some (.num 0))
    (hanim : c.animations = [])
    (ht : now + 1 ≤ t) :
    getProp (updateComp now dt1
      (animate now name (.num 100) 1 .linear c)).props name = some (.num 0) ∧
    getProp (updateComp (now + 1/2) dt2
      (animate now name (.num 100) 1 .linear c)).props name = some (.num 50) ∧
    getProp (updateComp t dt3
      (animate now name (.num 100) 1 .linear c)).props name = some (.num 100) ∧
    getAnim (updateComp t dt3
      (animate now name (.num 100) 1 .linear c)).animations name = none := by
  obtain ⟨r, v, e, z, cs, ps, as, g⟩ := c
  simp only [UIComponent.props_mk] at hprop
  simp only [UIComponent.animations_mk] at hanim
  subst hanim
  have hshape : animate now name (.num 100) 1 .linear
      ⟨r, v, e, z, cs, ps, [], g⟩ =
      ⟨r, v, e, z, cs, ps,
        [(name, ⟨.num 0, .num 100, 1, now, .linear⟩)], g⟩ := by
    simp [animate, hprop, setAnim]
  set d : AnimDesc := ⟨.num 0, .num 100, 1, now, .linear⟩ with hd
  have hstep0 : stepAnim now ps name d = (setProp ps name (.num 0), false) := by
    rw [stepAnim]
    norm_num [hd, Easing.eval]
  have hstep12 : stepAnim (now + 1/2) ps name d =
      (setProp ps name (.num 50), false) := by
    rw [stepAnim]
    norm_num [hd, Easing.eval]
  have hstept : stepAnim t ps name d = (setProp ps name (.num 100), true) := by
    rw [stepAnim]
    have h1 : min 1 ((t - d.start_time) / d.duration) = 1 := by
      rw [hd]
      simp only [div_one]
      exact min_eq_left (by linarith)
    rw [h1]
    norm_num
  refine ⟨?_, ?_, ?_, ?_⟩
  · rw [hshape, props_updateComp]
    simp only [UIComponent.animations_mk, List.isEmpty_cons, if_neg Bool.false_ne_true]
    rw [(single_anim_update _ _ _ _ _ _ _ _ _ _ _).1, hstep0, getProp_setProp]
  · rw [hshape, props_updateComp]
    simp only [UIComponent.animations_mk, List.isEmpty_cons, if_neg Bool.false_ne_true]
    rw [(single_anim_update _ _ _ _ _ _ _ _ _ _ _).1, hstep12, getProp_setProp]
  · rw [hshape, props_updateComp]
    simp only [UIComponent.animations_mk, List.isEmpty_cons, if_neg Bool.false_ne_true]
    rw [(single_anim_update _ _ _ _ _ _ _ _ _ _ _).1, hstept, getProp_setProp]
  · rw [hshape, animations_updateComp]
    simp only [UIComponent.animations_mk, List.isEmpty_cons, if_neg Bool.false_ne_true]
    rw [(single_anim_update _ _ _ _ _ _ _ _ _ _ _).2, hstept]
    simp [getAnim]

/-- C4 witness: a concrete node with property "p" = 0, animated at time 0
and sampled at elapsed 0, 1/2 and 1. -/
theorem animate_linear_from_zero_ticks_witness :
    getProp (UIComponent.props ⟨⟨0, 0, 0, 0⟩, true, true, 0, [],
        [("p", .num 0)], [], 0⟩) "p" = some (.num 0) ∧
    UIComponent.animations
      (⟨⟨0, 0, 0, 0⟩, true, true, 0, [], [("p", .num 0)], [], 0⟩ :
        UIComponent) = [] ∧
    (0 : ℚ) + 1 ≤ 1 ∧
    (getProp (updateComp 0 1
        (animate 0 "p" (.num 100) 1 .linear
          ⟨⟨0, 0, 0, 0⟩, true, true, 0, [], [("p", .num 0)], [], 0⟩)).props "p"
        = some (.num 0) ∧
      getProp (updateComp ((0 : ℚ) + 1/2) 1
        (animate 0 "p" (.num 100) 1 .linear
          ⟨⟨0, 0, 0, 0⟩, true, true, 0, [], [("p", .num 0)], [], 0⟩)).props "p"
        = some (.num 50) ∧
      getProp (updateComp 1 1
        (animate 0 "p" (.num 100) 1 .linear
          ⟨⟨0, 0, 0, 0⟩, true, true, 0, [], [("p", .num 0)], [], 0⟩)).props "p"
        = some (.num 100) ∧
      getAnim (updateComp 1 1
        (animate 0 "p" (.num 100) 1 .linear
          ⟨⟨0, 0, 0, 0⟩, true, true, 0, [], [("p", .num 0)], [], 0⟩)).animations "p"
        = none) :=
  ⟨by simp [getProp], rfl, by norm_num,
    animate_linear_from_zero_ticks _ "p" 0 1 1 1 1
      (by simp [getProp]) rfl (by norm_num)⟩

/-! ## C9 -/

theorem children_updateComp (now dt : ℚ) (c : UIComponent) :
    (updateComp now dt c).children =
      c.children.map (fun ch => if ch.visible then updateComp now dt ch else ch) := by
  rw [updateComp_eq]
  generalize (if c.animations.isEmpty then c else updateAnimationsNode now dt c) = c1
  cases c1
  simp

/-- C9: `update(dt)` recurses only into visible children.  A child whose
`visible` flag is false is kept in place entirely unchanged (the whole
subtree, its animations included, is the same value), and the child list
keeps its length and order. -/
theorem update_skips_hidden_children (now dt : ℚ) (c d0 : UIComponent)
    (i : ℕ) (hi : i < c.children.length)
    (hvis : (c.children.getD i d0).visible = false) :
    (updateComp now dt c).children.length = c.children.length ∧
    (updateComp now dt c).children.getD i d0 = c.children.getD i d0 := by
  rw [children_updateComp]
  refine ⟨by simp, ?_⟩
  rw [List.getD_eq_getElem?_getD] at hvis ⊢
  rw [List.getD_eq_getElem?_getD, List.getElem?_map]
  rw [List.getElem?_eq_getElem hi] at hvis ⊢
  simp only [Option.getD_some] at hvis
  simp [hvis]

/-- C9 witness: a root whose only child is hidden and carries an in-flight
animation; one update tick leaves the child (and so its animation) exactly
as it was. -/
theorem update_skips_hidden_children_witness :
    (0 < root9.children.length) ∧
    ((root9.children.getD 0 c1button).visible = false) ∧
    ((updateComp 5 5 root9).children.length = root9.children.length ∧
      (updateComp 5 5 root9).children.getD 0 c1button =
        root9.children.getD 0 c1button) :=
  ⟨by simp [root9], by simp [root9, hidden9],
    update_skips_hidden_children 5 5 root9 c1button 0
      (by simp [root9]) (by simp [root9, hidden9])⟩

/-! ## C3 -/

/-- C3: with an active screen, a click/long-press carrying coordinates
hit-tests the active screen's root.  When the resolved node differs from
the focused one, blur is emitted to the old focus (when present),
`focused_component` is updated to the resolved node, and focus is emitted
to it (when present); the original event is then emitted to the hit node
(when present); and in every case the active screen's own event handler is
invoked last. -/
theorem handle_input_focus_routing (m : UIManagerM) (scr : UIScreenM)
    (e : UIEvent) (x y : ℤ)
    (hcur : m.current_screen = some scr)
    (he : e = UIEvent.click ∨ e = UIEvent.long_press) :
    handleInput m e (some x) (some y) =
      ({ m with focused_component := hitTest x y scr.root },
       (if hitTest x y scr.root = m.focused_component then []
        else optEmit m.focused_component UIEvent.blur ++
          optEmit (hitTest x y scr.root) UIEvent.focus) ++
        optEmit (hitTest x y scr.root) e ++
        [EmitRec.screenHandler scr e]) := by
  rw [handleInput, hcur]
  simp only [if_pos he]
  by_cases hfoc : hitTest x y scr.root = m.focused_component
  · rw [if_pos hfoc, if_pos hfoc, hfoc]
    simp [← hcur]
  · rw [if_neg hfoc, if_neg hfoc]

/-- C3 witness: clicking (30, 20) on `mgr3` (active screen `scr3` over the
C1 tree, nothing focused). -/
theorem handle_input_focus_routing_witness :
    mgr3.current_screen = some scr3 ∧
    (UIEvent.click = UIEvent.click ∨ UIEvent.click = UIEvent.long_press) ∧
    handleInput mgr3 UIEvent.click (some 30) (some 20) =
      ({ mgr3 with focused_component := hitTest 30 20 scr3.root },
       (if hitTest 30 20 scr3.root = mgr3.focused_component then []
        else optEmit mgr3.focused_component UIEvent.blur ++
          optEmit (hitTest 30 20 scr3.root) UIEvent.focus) ++
        optEmit (hitTest 30 20 scr3.root) UIEvent.click ++
        [EmitRec.screenHandler scr3 UIEvent.click]) :=
  ⟨rfl, Or.inl rfl,
    handle_input_focus_routing mgr3 scr3 UIEvent.click 30 20 rfl (Or.inl rfl)⟩

/-! ## C5 -/

theorem insertZ_ne_nil (c : UIComponent) (l : List UIComponent) :
    insertZ c l ≠ [] := by
  cases l with
  | nil => simp [insertZ]
  | cons d ds =>
      rw [insertZ]
      by_cases h : d.z_index < c.z_index
      · simp [h]
      · simp [h]

theorem getLast?_cons_of_ne_nil (a : UIComponent) (l : List UIComponent)
    (h : l ≠ []) : (a :: l).getLast? = l.getLast? := by
  cases l with
  | nil => exact absurd rfl h
  | cons b bs => exact List.getLast?_cons_cons

theorem getLast?_insertZ_big (c : UIComponent) (l : List UIComponent)
    (h : ∀ d ∈ l, d.z_index < c.z_index) :
    (insertZ c l).getLast? = some c := by
  induction l with
  | nil => rfl
  | cons e es ih =>
      rw [insertZ, if_pos (h e (List.mem_cons_self e es))]
      rw [getLast?_cons_of_ne_nil e _ (insertZ_ne_nil c es)]
      exact ih (fun d hd => h d (List.mem_cons_of_mem e hd))

theorem getLast?_insertZ_small (c : UIComponent) (l : List UIComponent)
    (hex : ∃ d ∈ l, c.z_index ≤ d.z_index) :
    (insertZ c l).getLast? = l.getLast? := by
  induction l with
  | nil => obtain ⟨d, hd, _⟩ := hex; exact absurd hd (List.not_mem_nil d)
  | cons e es ih =>
      rw [insertZ]
      by_cases h : e.z_index < c.z_index
      · rw [if_pos h]
        obtain ⟨d, hd, hdz⟩ := hex
        have hdes : d ∈ es := by
          rcases List.mem_cons.mp hd with heq | hes
          · rw [heq] at hdz; omega
          · exact hes
        have hesne : es ≠ [] := List.ne_nil_of_mem hdes
        rw [getLast?_cons_of_ne_nil e _ (insertZ_ne_nil c es),
          ih ⟨d, hdes, hdz⟩, getLast?_cons_of_ne_nil e es hesne]
      · rw [if_neg h]
        exact List.getLast?_cons_cons

theorem lastMax_eq_none_iff (l : List UIComponent) :
    lastMax l = none ↔ l = [] := by
  cases l with
  | nil => simp [lastMax]
  | cons c cs =>
      rw [lastMax]
      cases lastMax cs with
      | none => simp
      | some m =>
          by_cases h : m.z_index < c.z_index <;> simp [h]

theorem lastMax_mem {l : List UIComponent} {m : UIComponent}
    (h : lastMax l = some m) : m ∈ l := by
  induction l with
  | nil => exact absurd h (by simp [lastMax])
  | cons c cs ih =>
      cases hm : lastMax cs with
      | none =>
          have hred : lastMax (c :: cs) = some c := by rw [lastMax, hm]
          rw [hred] at h
          exact List.mem_cons.mpr (Or.inl (Option.some_injective _ h).symm)
      | some m' =>
          have hred : lastMax (c :: cs) =
              if m'.z_index < c.z_index then some c else some m' := by
            rw [lastMax, hm]
          rw [hred] at h
          by_cases hz : m'.z_index < c.z_index
          · rw [if_pos hz] at h
            exact List.mem_cons.mpr (Or.inl (Option.some_injective _ h).symm)
          · rw [if_neg hz] at h
            rw [Option.some_injective _ h] at hm
            exact List.mem_cons_of_mem c (ih hm)

theorem lastMax_le {l : List UIComponent} {m : UIComponent}
    (h : lastMax l = some m) : ∀ d ∈ l, d.z_index ≤ m.z_index := by
  induction l generalizing m with
  | nil => exact absurd h (by simp [lastMax])
  | cons c cs ih =>
      intro d hd
      cases hm : lastMax cs with
      | none =>
          have hcs : cs = [] := (lastMax_eq_none_iff cs).mp hm
          have hred : lastMax (c :: cs) = some c := by rw [lastMax, hm]
          rw [hred] at h
          rcases List.mem_cons.mp hd with heq | hes
          · rw [heq, ← Option.some_injective _ h]
          · rw [hcs] at hes
            exact absurd hes (List.not_mem_nil d)
      | some m' =>
          have hred : lastMax (c :: cs) =
              if m'.z_index < c.z_index then some c else some m' := by
            rw [lastMax, hm]
          rw [hred] at h
          by_cases hz : m'.z_index < c.z_index
          · rw [if_pos hz] at h
            rw [← Option.some_injective _ h]
            rcases List.mem_cons.mp hd with heq | hes
            · rw [heq]
            · exact le_of_lt (lt_of_le_of_lt (ih hm d hes) hz)
          · rw [if_neg hz] at h
            rw [← Option.some_injective _ h]
            rcases List.mem_cons.mp hd with heq | hes
            · rw [heq]; omega
            · exact ih hm d hes

theorem lastMax_decomp {l : List UIComponent} {m : UIComponent}
    (h : lastMax l = some m) :
    ∃ l1 l2, l = l1 ++ m :: l2 ∧ ∀ d ∈ l2, d.z_index < m.z_index := by
  induction l generalizing m with
  | nil => exact absurd h (by simp [lastMax])
  | cons c cs ih =>
      cases hm : lastMax cs with
      | none =>
          have hcs : cs = [] := (lastMax_eq_none_iff cs).mp hm
          have hred : lastMax (c :: cs) = some c := by rw [lastMax, hm]
          rw [hred] at h
          refine ⟨[], cs, ?_, ?_⟩
          · rw [← Option.some_injective _ h]; rfl
          · rw [hcs]; intro d hd; exact absurd hd (List.not_mem_nil d)
      | some m' =>
          have hred : lastMax (c :: cs) =
              if m'.z_index < c.z_index then some c else some m' := by
            rw [lastMax, hm]
          rw [hred] at h
          by_cases hz : m'.z_index < c.z_index
          · rw [if_pos hz] at h
            refine ⟨[], cs, ?_, ?_⟩
            · rw [← Option.some_injective _ h]; rfl
            · intro d hd
              rw [← Option.some_injective _ h]
              exact lt_of_le_of_lt (lastMax_le hm d hd) hz
          · rw [if_neg hz] at h
            rw [← Option.some_injective _ h]
            obtain ⟨l1, l2, hdec, hl2⟩ := ih hm
            exact ⟨c :: l1, l2, by rw [hdec]; rfl, hl2⟩

theorem getLast?_sortedByZ (l : List UIComponent) :
    (sortedByZ l).getLast? = lastMax l := by
  induction l with
  | nil => rfl
  | cons c cs ih =>
      rw [sortedByZ]
      cases hm : lastMax cs with
      | none =>
          have hcs : cs = [] := (lastMax_eq_none_iff cs).mp hm
          rw [hcs]
          rfl
      | some m =>
          have hred : lastMax (c :: cs) =
              if m.z_index < c.z_index then some c else some m := by
            rw [lastMax, hm]
          rw [hred]
          by_cases hz : m.z_index < c.z_index
          · rw [if_pos hz]
            exact getLast?_insertZ_big c _ (fun d hd => by
              have hdcs : d ∈ cs := mem_sortedByZ.mp hd
              exact lt_of_le_of_lt (lastMax_le hm d hdcs) hz)
          · rw [if_neg hz]
            rw [getLast?_insertZ_small c _
              ⟨m, mem_sortedByZ.mpr (lastMax_mem hm), by omega⟩, ih, hm]

theorem hitTest_leaf_self (x y : ℤ) (c : UIComponent)
    (hv : c.visible = true) (he : c.enabled = true)
    (hc : c.children = []) (hr : c.rect.contains x y = true) :
    hitTest x y c = some c := by
  rw [hitTest_eq, hc]
  simp [hv, he, hr, sortedByZ]

theorem findSome?_of_self {α : Type} (l : List α) (f : α → Option α)
    (h : ∀ e ∈ l, f e = some e) : l.findSome? f = l.head? := by
  cases l with
  | nil => rfl
  | cons a as =>
      rw [List.findSome?_cons, h a (List.mem_cons_self a as)]
      rfl

/-- C5: on a visible, enabled parent whose rectangle contains the point and
all of whose children are visible, enabled leaves whose rectangles contain
the point, `hit_test` resolves to a child carrying the maximal z-index, and
among those the last one in the child sequence (every later sibling has a
strictly smaller z-index), i.e. the most recently added one. -/
theorem hit_test_overlapping_siblings (p : UIComponent) (x y : ℤ)
    (hv : p.visible = true) (hen : p.enabled = true)
    (hr : p.rect.contains x y = true)
    (hne : p.children ≠ [])
    (hch : ∀ c ∈ p.children, c.visible = true ∧ c.enabled = true ∧
      c.children = [] ∧ c.rect.contains x y = true) :
    ∃ l1 w l2, p.children = l1 ++ w :: l2 ∧
      hitTest x y p = some w ∧
      (∀ d ∈ p.children, d.z_index ≤ w.z_index) ∧
      (∀ d ∈ l2, d.z_index < w.z_index) := by
  obtain ⟨m, hm⟩ : ∃ m, lastMax p.children = some m := by
    cases hlm : lastMax p.children with
    | none => exact absurd ((lastMax_eq_none_iff _).mp hlm) hne
    | some m => exact ⟨m, rfl⟩
  have hself : ∀ e ∈ (sortedByZ p.children).reverse,
      hitTest x y e = some e := by
    intro e hemem
    have he' : e ∈ p.children := mem_sortedByZ.mp (List.mem_reverse.mp hemem)
    obtain ⟨h1, h2, h3, h4⟩ := hch e he'
    exact hitTest_leaf_self x y e h1 h2 h3 h4
  have hfind : (sortedByZ p.children).reverse.findSome? (hitTest x y)
      = some m := by
    rw [findSome?_of_self _ _ hself, List.head?_reverse,
      getLast?_sortedByZ, hm]
  obtain ⟨l1, l2, hdecomp, hl2⟩ := lastMax_decomp hm
  refine ⟨l1, m, l2, hdecomp, ?_, lastMax_le hm, hl2⟩
  rw [hitTest_eq, hv, hen]
  simp only [Bool.true_eq_false, or_self, if_false, hr, if_true]
  rw [hfind]

/-- Two overlapping siblings at (5,5): z-index 1, added first. -/
def sib1 : UIComponent := ⟨⟨0, 0, 10, 10⟩, true, true, 1, [], [], [], 0⟩

/-- Two overlapping siblings at (5,5): z-index 2, added second. -/
def sib2 : UIComponent := ⟨⟨0, 0, 10, 10⟩, true, true, 2, [], [], [], 0⟩

/-- Parent of the two overlapping siblings. -/
def par5 : UIComponent := ⟨⟨0, 0, 100, 100⟩, true, true, 0, [sib1, sib2], [], [], 0⟩

/-- C5 witness: the two-sibling overlap scenario at point (5,5). -/
theorem hit_test_overlapping_siblings_witness :
    par5.visible = true ∧ par5.enabled = true ∧
    par5.rect.contains 5 5 = true ∧ par5.children ≠ [] ∧
    (∀ c ∈ par5.children, c.visible = true ∧ c.enabled = true ∧
      c.children = [] ∧ c.rect.contains 5 5 = true) ∧
    (∃ l1 w l2, par5.children = l1 ++ w :: l2 ∧
      hitTest 5 5 par5 = some w ∧
      (∀ d ∈ par5.children, d.z_index ≤ w.z_index) ∧
      (∀ d ∈ l2, d.z_index < w.z_index)) := by
  have hch : ∀ c ∈ par5.children, c.visible = true ∧ c.enabled = true ∧
      c.children = [] ∧ c.rect.contains 5 5 = true := by
    intro c hc
    simp only [par5, UIComponent.children_mk, List.mem_cons,
      List.not_mem_nil, or_false] at hc
    rcases hc with h | h <;> subst h <;> exact ⟨rfl, rfl, rfl, by decide⟩
  exact ⟨rfl, rfl, by decide, by simp [par5], hch,
    hit_test_overlapping_siblings par5 5 5 rfl rfl (by decide)
      (by simp [par5]) hch⟩

end PrintPal
